import Mathlib

/-!
# Verification of the wisdom-store project indexer and symbol checker

Shallow embedding of the symbol-extraction / registry / fuzzy-match /
route-validation core (the `project-index` module and the `symbol-check`
hook script) together with proofs of the spec claims.

Modelling conventions:
* JavaScript objects used as string-keyed maps become insertion-ordered
  association lists (`List (String × α)`); property addition appends a new
  key at the end, property update rewrites the stored value in place —
  matching JS enumeration-order semantics.
* JS strings are modelled as Lean `String`s (all inputs of interest are
  ASCII, where JS UTF-16 `.length`, `toLowerCase`/`toUpperCase` agree with
  the codepoint-based Lean counterparts used below).
* The filesystem and the external syntax-tree parsing service are passed
  in as explicit data (a tree value, an oracle function); they are I/O in
  the source.
-/

namespace WisdomStore

/-- One registry entry: defining file, 1-based line, occurrence count
(`usages` in the source). -/
structure SymbolInfo where
  file : String
  line : Nat
  usages : Nat
deriving DecidableEq, Repr

/-- Category map: insertion-ordered association list from symbol name to
its entry (a JS object used as a map). -/
abbrev CategoryMap := List (String × SymbolInfo)

/-- Lookup in an association list, first match wins (JS property access;
keys are unique in maps built by `addSymbol`, so first match is the match). -/
def alookup {α : Type} : List (String × α) → String → Option α
  | [], _ => none
  | (k, v) :: t, n => if k = n then some v else alookup t n

/-- Increment the occurrence counter of an entry (`category[name].usages++`). -/
def bumpUsages (e : SymbolInfo) : SymbolInfo := { e with usages := e.usages + 1 }

/-- `addSymbol(category, name, file, line)` (project-index, lines 492-498):
if the name is absent insert `{file, line, usages: 1}` (new key appended),
otherwise increment `usages` in place, leaving `file`/`line` untouched. -/
def addSymbol (category : CategoryMap) (name file : String) (line : Nat) :
    CategoryMap :=
  match alookup category name with
  | none => category ++ [(name, ⟨file, line, 1⟩)]
  | some _ =>
      category.map fun p =>
        if p.1 = name then (p.1, bumpUsages p.2) else p

/-- One `addSymbol` call: symbol name, file, line. -/
structure SymCall where
  name : String
  file : String
  line : Nat
deriving DecidableEq, Repr

/-- A sequence of `addSymbol` calls against one category map, applied in
order (the traversal order of one scan). -/
def runAddSymbols (category : CategoryMap) (calls : List SymCall) :
    CategoryMap :=
  calls.foldl (fun c k => addSymbol c k.name k.file k.line) category

theorem runAddSymbols_nil (category : CategoryMap) :
    runAddSymbols category [] = category := rfl

theorem runAddSymbols_cons (category : CategoryMap) (c : SymCall)
    (t : List SymCall) :
    runAddSymbols category (c :: t) =
      runAddSymbols (addSymbol category c.name c.file c.line) t := rfl

theorem alookup_append {α : Type} (l₁ l₂ : List (String × α)) (n : String) :
    alookup (l₁ ++ l₂) n =
      match alookup l₁ n with
      | some v => some v
      | none => alookup l₂ n := by
  induction l₁ with
  | nil => simp [alookup]
  | cons p t ih =>
      simp only [List.cons_append, alookup]
      split <;> simp [ih]

theorem alookup_map_bump (name : String) :
    ∀ (l : CategoryMap) (m : String),
      alookup (l.map fun p => if p.1 = name then (p.1, bumpUsages p.2) else p)
          m =
        if m = name then (alookup l m).map bumpUsages else alookup l m := by
  intro l
  induction l with
  | nil => intro m; simp [alookup]
  | cons p t ih =>
      intro m
      obtain ⟨k, v⟩ := p
      by_cases hk : k = name
      · subst hk
        simp only [List.map_cons, if_pos rfl]
        by_cases hm : k = m
        · subst hm
          simp [alookup]
        · have hm' : ¬m = k := fun h => hm h.symm
          simp [alookup, hm, hm', ih m]
      · simp only [List.map_cons, if_neg hk]
        by_cases hm : k = m
        · subst hm
          simp [alookup, hk]
        · have hm' : ¬m = k := fun h => hm h.symm
          simp [alookup, hm, ih m]

/-- Adding one name never disturbs lookups of a different name. -/
theorem addSymbol_lookup_ne (category : CategoryMap) (name file : String)
    (line : Nat) (m : String) (hne : m ≠ name) :
    alookup (addSymbol category name file line) m = alookup category m := by
  unfold addSymbol
  cases h : alookup category name with
  | none =>
      rw [alookup_append]
      cases hm : alookup category m with
      | none => simp [alookup, Ne.symm hne]
      | some e => rfl
  | some e => rw [alookup_map_bump, if_neg hne]

/-- First call for a name stores that call's file/line with count 1. -/
theorem addSymbol_lookup_new (category : CategoryMap) (name file : String)
    (line : Nat) (h : alookup category name = none) :
    alookup (addSymbol category name file line) name =
      some ⟨file, line, 1⟩ := by
  unfold addSymbol
  rw [h, alookup_append, h]
  simp [alookup]

/-- A later call for a present name only bumps `usages`. -/
theorem addSymbol_lookup_bump (category : CategoryMap) (name file : String)
    (line : Nat) (e : SymbolInfo) (h : alookup category name = some e) :
    alookup (addSymbol category name file line) name = some (bumpUsages e) := by
  unfold addSymbol
  rw [h, alookup_map_bump, if_pos rfl, h]
  rfl

/-- Folding calls that never mention `n` leaves `n`'s lookup unchanged. -/
theorem runAddSymbols_lookup_of_not_mem (category : CategoryMap)
    (calls : List SymCall) (n : String) (h : ∀ c ∈ calls, c.name ≠ n) :
    alookup (runAddSymbols category calls) n = alookup category n := by
  induction calls generalizing category with
  | nil => rfl
  | cons c t ih =>
      rw [runAddSymbols_cons]
      rw [ih _ fun d hd => h d (List.mem_cons_of_mem c hd)]
      exact addSymbol_lookup_ne _ _ _ _ _ fun he =>
        h c (List.mem_cons_self c t) he.symm

/-- Once a name is present, every further call for it adds exactly one to
`usages` and never touches file/line. -/
theorem runAddSymbols_lookup_of_present (calls : List SymCall)
    (category : CategoryMap) (n : String) (e : SymbolInfo)
    (h : alookup category n = some e) :
    alookup (runAddSymbols category calls) n =
      some { e with usages :=
        e.usages + (calls.filter (fun c => c.name = n)).length } := by
  induction calls generalizing category e with
  | nil =>
      rw [runAddSymbols_nil, h]
      simp
  | cons c t ih =>
      rw [runAddSymbols_cons]
      by_cases hc : c.name = n
      · rw [hc]
        rw [ih _ _ (addSymbol_lookup_bump category n c.file c.line e h)]
        simp only [bumpUsages, List.filter_cons, hc, decide_True, if_true,
          List.length_cons, Option.some.injEq, SymbolInfo.mk.injEq,
          true_and]
        omega
      · rw [ih _ _ ((addSymbol_lookup_ne category c.name c.file c.line n
            fun he => hc he.symm).trans h)]
        simp [List.filter_cons, hc]

theorem runAddSymbols_append (category : CategoryMap)
    (l₁ l₂ : List SymCall) :
    runAddSymbols category (l₁ ++ l₂) =
      runAddSymbols (runAddSymbols category l₁) l₂ := by
  simp [runAddSymbols, List.foldl_append]

/-- **C1.** Within one scan, for any sequence of `addSymbol` calls on a
category starting from the empty map: if the first call for name `n` is
`(n, f, l)` (no earlier call in the sequence mentions `n`), then after all
calls the entry for `n` records exactly file `f` and line `l` — the first
occurrence in traversal order — and an occurrence count equal to the total
number of calls for `n` in the whole sequence. -/
theorem addSymbol_first_wins_and_counts (pre post : List SymCall)
    (n f : String) (l : Nat) (hpre : ∀ c ∈ pre, c.name ≠ n) :
    alookup (runAddSymbols [] (pre ++ ⟨n, f, l⟩ :: post)) n =
      some ⟨f, l,
        ((pre ++ ⟨n, f, l⟩ :: post).filter (fun c => c.name = n)).length⟩ := by
  rw [runAddSymbols_append]
  have hnone : alookup (runAddSymbols [] pre) n = none := by
    rw [runAddSymbols_lookup_of_not_mem [] pre n hpre]; rfl
  have hstep : alookup (runAddSymbols (runAddSymbols [] pre) [⟨n, f, l⟩]) n =
      some ⟨f, l, 1⟩ := by
    simpa [runAddSymbols] using
      addSymbol_lookup_new (runAddSymbols [] pre) n f l hnone
  have hrest := runAddSymbols_lookup_of_present post _ n ⟨f, l, 1⟩
    (by simpa [runAddSymbols] using hstep)
  have hcount : ((pre ++ (⟨n, f, l⟩ : SymCall) :: post).filter
      (fun c => c.name = n)).length =
      1 + (post.filter (fun c => c.name = n)).length := by
    rw [List.filter_append, List.filter_cons]
    have hprefil : pre.filter (fun c => c.name = n) = [] := by
      rw [List.filter_eq_nil_iff]
      intro c hc
      simpa using hpre c hc
    simp [hprefil, Nat.add_comm]
  rw [hcount]
  simpa [runAddSymbols, Nat.add_comm] using hrest

/-- Witness for C1: the spec's own scenario — `greet` first seen in
`file1` line 3, again in `file2` line 9 — yields
`{file: file1, line: 3, usages: 2}`. -/
theorem addSymbol_first_wins_and_counts_witness :
    alookup (runAddSymbols []
        ([] ++ ⟨"greet", "file1", 3⟩ :: [⟨"greet", "file2", 9⟩])) "greet" =
      some ⟨"file1", 3,
        (([] ++ (⟨"greet", "file1", 3⟩ : SymCall) ::
            [⟨"greet", "file2", 9⟩]).filter
          (fun (c : SymCall) => c.name = "greet")).length⟩ :=
  addSymbol_first_wins_and_counts [] [⟨"greet", "file2", 9⟩]
    "greet" "file1" 3 (fun (c : SymCall) hc => absurd hc (List.not_mem_nil c))

/-! ## Route table and route validator (symbol-check script, lines 394-449)

JS string primitives that the validator uses (`startsWith`, `endsWith`,
`split`) are modelled over the character list of the string, since the
built-in Lean counterparts are not kernel-reducible. -/

/-- `s.startsWith(pre)`. -/
def strStartsWith (s pre : String) : Bool := pre.toList.isPrefixOf s.toList

/-- `s.endsWith(suf)`. -/
def strEndsWith (s suf : String) : Bool := suf.toList.isSuffixOf s.toList

/-- Helper for `split`: accumulate the current field (reversed). -/
def splitOnCharAux (sep : Char) : List Char → List Char → List (List Char)
  | [], acc => [acc.reverse]
  | c :: t, acc =>
      if c = sep then acc.reverse :: splitOnCharAux sep t []
      else splitOnCharAux sep t (c :: acc)

/-- `s.split(sep)` for a one-character separator (the only use in the
source: `split('/')` and `split(' ')`). -/
def strSplitOn (s : String) (sep : Char) : List String :=
  (splitOnCharAux sep s.toList []).map String.mk

/-- A route-table value (lines 318-319 / 329-330 of the indexer):
declaring file, 1-based line, HTTP verb (or the sentinel `MOUNT`) and
path. -/
structure RouteInfo where
  file : String
  line : Nat
  method : String
  path : String
deriving DecidableEq, Repr

/-- `registry.apiRoutes`: insertion-ordered map from route key
(`"VERB /path"` or `"MOUNT /path"`) to its info. -/
abbrev RouteTable := List (String × RouteInfo)

/-- `info.path || key.split(' ').slice(1).join(' ')` (line 405): the path
field if non-empty (truthy), else everything after the key's first word. -/
def routePathOf (key : String) (info : RouteInfo) : String :=
  if info.path ≠ "" then info.path
  else String.intercalate " " ((strSplitOn key ' ').drop 1)

/-- Leaf-route paths: entries whose method is not `MOUNT` (lines 404-413). -/
def knownPaths (apiRoutes : RouteTable) : List String :=
  (apiRoutes.filter fun kv => kv.2.method ≠ "MOUNT").map
    fun kv => routePathOf kv.1 kv.2

/-- Mount paths: entries whose method is `MOUNT` (lines 404-413). -/
def mounts (apiRoutes : RouteTable) : List String :=
  (apiRoutes.filter fun kv => kv.2.method = "MOUNT").map
    fun kv => routePathOf kv.1 kv.2

/-- JS `\w`: `[A-Za-z0-9_]`. -/
def isWordChar (c : Char) : Bool := c.isAlphanum || c = '_'

/-- `[a-zA-Z_]`, the first character of a `:param` name. -/
def isParamStart (c : Char) : Bool := c.isAlpha || c = '_'

/-- Global replacement of the pattern `/:[a-zA-Z_]\w*` (a slash, a colon,
a parameter name) by `/*` (line 410), as a left-to-right non-overlapping
scan, exactly like a global regex replace. The `Nat` argument is fuel
bounding the recursion; it is initialised to the list length, which every
step consumes at least one character of, so it never runs out. -/
def normalizeRouteAux : Nat → List Char → List Char
  | _, [] => []
  | 0, l => l
  | fuel + 1, '/' :: ':' :: c :: rest =>
      if isParamStart c then
        '/' :: '*' :: normalizeRouteAux fuel (rest.dropWhile isWordChar)
      else '/' :: ':' :: normalizeRouteAux fuel (c :: rest)
  | fuel + 1, c :: rest => c :: normalizeRouteAux fuel rest

/-- `routePath.replace(/\/:[a-zA-Z_]\w*\/g, '/*')` (line 410). -/
def normalizeRoute (s : String) : String :=
  String.mk (normalizeRouteAux s.toList.length s.toList)

/-- Normalized known leaf routes (lines 410-411). -/
def knownNormalized (apiRoutes : RouteTable) : List String :=
  (knownPaths apiRoutes).map normalizeRoute

/-- `/^\d+$/.test(s)`: non-empty and all decimal digits. -/
def isAllDigits (s : String) : Bool :=
  s ≠ "" && s.toList.all Char.isDigit

/-- Query normalization (lines 429-430): split the query on `/` and
replace every purely-numeric segment by the wildcard `*`. Non-numeric
segments are kept verbatim. -/
def wildcardQuery (p : String) : String :=
  String.intercalate "/" ((strSplitOn p '/').map fun s =>
    if isAllDigits s then "*" else s)

/-- Mounts that resolve to at least one known leaf route (lines 415-422):
some leaf path equals the mount or extends it past a `/`. -/
def mountsWithSubRoutes (apiRoutes : RouteTable) : List String :=
  (mounts apiRoutes).filter fun m =>
    (knownPaths apiRoutes).any fun kp =>
      strStartsWith kp (m ++ "/") || kp == m

/-- The acceptance test the validator applies to one already-stripped
query path (lines 427-446): exact match, else wildcarded match against
normalized known routes, else strict-prefix of a known leaf, else lying
under an opaque mount. A path failing all four is pushed to `badRoutes`. -/
def routeAccepted (apiRoutes : RouteTable) (apiPath : String) : Bool :=
  (knownPaths apiRoutes).contains apiPath
  || (knownNormalized apiRoutes).contains (wildcardQuery apiPath)
  || (knownPaths apiRoutes).any (fun kp => strStartsWith kp (apiPath ++ "/"))
  || (mounts apiRoutes).any (fun m =>
      !((mountsWithSubRoutes apiRoutes).contains m) &&
        (strStartsWith apiPath (m ++ "/") || apiPath == m))

/-- `match[1].replace(/\/$/, '')` (line 425): drop one trailing slash. -/
def stripTrailingSlash (s : String) : String :=
  if strEndsWith s "/" then s.dropRight 1 else s

/-- Validation of one raw matched path literal. -/
def validateApiPath (apiRoutes : RouteTable) (raw : String) : Bool :=
  routeAccepted apiRoutes (stripTrailingSlash raw)

/-- The route table of claim C3: the single leaf route `/api/users/:id`. -/
def usersRouteTable : RouteTable :=
  [("GET /api/users/:id", ⟨"server.js", 1, "GET", "/api/users/:id"⟩)]

/-- C3 as written is false: with only `/api/users/:id` known, the code
REJECTS the query `/api/users/abc` — query segments are wildcarded only
when purely numeric, so `abc` stays `abc` and never matches the
normalized `/api/users/*`; the claim asserts it is accepted. -/
theorem routeValidator_param_counterexample :
    routeAccepted usersRouteTable "/api/users/abc" = false := by decide

/-- **C3 (amended).** With only `/api/users/:id` known: `/api/users/42`
is accepted (numeric query segments and `:param` segments of known routes
are both wildcarded); `/api/users/abc` is reported unknown (non-numeric
query segments are not wildcarded); `/api/users/42/profile` is reported
unknown, but becomes accepted once a known leaf `/api/users/:id/profile`
extends it. -/
theorem routeValidator_param_amended :
    routeAccepted usersRouteTable "/api/users/42" = true ∧
    routeAccepted usersRouteTable "/api/users/abc" = false ∧
    routeAccepted usersRouteTable "/api/users/42/profile" = false ∧
    routeAccepted
      (usersRouteTable ++
        [("GET /api/users/:id/profile",
          ⟨"server.js", 2, "GET", "/api/users/:id/profile"⟩)])
      "/api/users/42/profile" = true := by decide

/-- **C4.** Any query lying under an opaque mount — a mount none of whose
known leaf routes equal it or extend it past a `/` — is accepted
unconditionally by the route validator. -/
theorem routeValidator_opaque_mount_accepts (apiRoutes : RouteTable)
    (m query : String) (hm : m ∈ mounts apiRoutes)
    (hnosub : ∀ kp ∈ knownPaths apiRoutes,
      ¬(strStartsWith kp (m ++ "/") = true ∨ kp = m))
    (hunder : strStartsWith query (m ++ "/") = true ∨ query = m) :
    routeAccepted apiRoutes query = true := by
  have hnotmem : m ∉ mountsWithSubRoutes apiRoutes := by
    intro hmem
    rw [mountsWithSubRoutes, List.mem_filter] at hmem
    obtain ⟨-, hpred⟩ := hmem
    rw [List.any_eq_true] at hpred
    obtain ⟨kp, hkp, hcond⟩ := hpred
    rcases Bool.or_eq_true_iff.mp hcond with h | h
    · exact hnosub kp hkp (Or.inl h)
    · exact hnosub kp hkp (Or.inr (by simpa using h))
  have hcont : ((mountsWithSubRoutes apiRoutes).contains m) = false := by
    simpa using hnotmem
  have hlast : (mounts apiRoutes).any (fun mm =>
      !((mountsWithSubRoutes apiRoutes).contains mm) &&
        (strStartsWith query (mm ++ "/") || query == mm)) = true := by
    rw [List.any_eq_true]
    refine ⟨m, hm, ?_⟩
    rw [hcont]
    rcases hunder with h | h
    · simp [h]
    · simp [h]
  rw [routeAccepted, hlast]
  simp

/-- Witness for C4: mount `/api/legacy` with no resolved sub-routes; the
query `/api/legacy/old-endpoint` is accepted. -/
theorem routeValidator_opaque_mount_accepts_witness :
    routeAccepted
      [("MOUNT /api/legacy", ⟨"server.js", 9, "MOUNT", "/api/legacy"⟩)]
      "/api/legacy/old-endpoint" = true :=
  routeValidator_opaque_mount_accepts
    [("MOUNT /api/legacy", ⟨"server.js", 9, "MOUNT", "/api/legacy"⟩)]
    "/api/legacy" "/api/legacy/old-endpoint"
    (by decide) (by decide) (by decide)

/-! ## Fuzzy matcher (project-index, lines 640-680) -/

/-- `s.toLowerCase()` (ASCII model, matching the JS behaviour on the
identifier characters that occur in symbol names). -/
def lowerStr (s : String) : String := String.mk (s.toList.map Char.toLower)

/-- `s.toUpperCase()` (ASCII model). -/
def upperStr (s : String) : String := String.mk (s.toList.map Char.toUpper)

/-- One DP row of `levenshtein` past its leading cell (lines 665-677):
`bi` is the current character of `b`; `as` the characters of `a` still to
process; `prev` the previous matrix row aligned with them; `diag` the
previous row's cell up-left of the next cell; `left` the cell just
written. Each cell is `diag` when the characters agree, else
`min(diag, left, up) + 1`. -/
def levRow (bi : Char) : List Char → List Nat → Nat → Nat → List Nat
  | [], _, _, _ => []
  | _ :: _, [], _, _ => []
  | a :: as, up :: prevRest, diag, left =>
      let cur := if bi = a then diag else min (min diag left) up + 1
      cur :: levRow bi as prevRest up cur

/-- All DP rows (lines 662-677): process the characters of `b`, carrying
the current row; row `i+1` starts with its border cell `i+1`
(`matrix[i][0] = i`). -/
def levRows (as : List Char) : List Char → List Nat → Nat → List Nat
  | [], row, _ => row
  | bi :: brest, row, i =>
      levRows as brest ((i + 1) :: levRow bi as row.tail (row.headD 0) (i + 1))
        (i + 1)

/-- `levenshtein(a, b)` (lines 657-680): the classic full-matrix DP; row 0
is `0..a.length` (`matrix[0][j] = j`), and the result is the bottom-right
cell `matrix[b.length][a.length]`. -/
def levenshtein (a b : String) : Nat :=
  if a.toList.length = 0 then b.toList.length
  else if b.toList.length = 0 then a.toList.length
  else (levRows a.toList b.toList (List.range (a.toList.length + 1)) 0).getLastD 0

/-- `Math.max(2, Math.floor(query.length * 0.3))` (line 643). For every
natural length the IEEE-double product `len * 0.3` floors to `3*len/10`
(`0.3` is below `3/10` by well under half an ulp of the product), so the
gate is `max 2 (3*len/10)`. -/
def fuzzyMaxDistance (query : String) : Nat := max 2 (3 * query.length / 10)

/-- `dist < bestDistance`, where `none` plays the role of the initial
`Infinity` so that every distance beats it. -/
def beatsBest (dist : Nat) : Option (String × Nat) → Bool
  | none => true
  | some b => dist < b.2

/-- One iteration of the candidate loop (lines 645-652): skip the
candidate when its length differs from the query's by more than the gate;
otherwise compute the lower-cased edit distance (`dist` in the source,
written out here) and keep the candidate when the distance is within the
gate and strictly better than the best so far. -/
def fuzzyStep (query : String) (maxDistance : Nat)
    (best : Option (String × Nat)) (name : String) : Option (String × Nat) :=
  if ((name.length : Int) - (query.length : Int)).natAbs > maxDistance then
    best
  else
    if levenshtein (lowerStr query) (lowerStr name) ≤ maxDistance &&
        beatsBest (levenshtein (lowerStr query) (lowerStr name)) best then
      some (name, levenshtein (lowerStr query) (lowerStr name))
    else best

/-- `findFuzzyMatch(query, names)` (lines 640-655); `names` is the known
name set in insertion order. -/
def findFuzzyMatch (query : String) (names : List String) :
    Option (String × Nat) :=
  names.foldl (fuzzyStep query (fuzzyMaxDistance query)) none

/-- Soundness of the candidate fold: a returned match either was the
starting accumulator or is a gate-passing member of the list whose
reported distance is its lower-cased edit distance, within the gate. -/
theorem fuzzy_foldl_sound (q : String) (g : Nat) :
    ∀ (names : List String) (best : Option (String × Nat)) (m : String)
      (d : Nat), names.foldl (fuzzyStep q g) best = some (m, d) →
      best = some (m, d) ∨
        (m ∈ names ∧
          ((m.length : Int) - (q.length : Int)).natAbs ≤ g ∧
          d = levenshtein (lowerStr q) (lowerStr m) ∧ d ≤ g) := by
  intro names
  induction names with
  | nil => intro best m d h; exact Or.inl h
  | cons n rest ih =>
      intro best m d h
      rw [List.foldl_cons] at h
      rcases ih (fuzzyStep q g best n) m d h with hbest | hmem
      · unfold fuzzyStep at hbest
        split at hbest
        · exact Or.inl hbest
        · rename_i hgate
          split at hbest
          · rename_i hcond
            rw [Bool.and_eq_true, decide_eq_true_eq] at hcond
            have hpair : n = m ∧ levenshtein (lowerStr q) (lowerStr n) = d := by
              simpa using hbest
            obtain ⟨h1, h2⟩ := hpair
            subst h1
            exact Or.inr ⟨List.mem_cons_self _ _, le_of_not_lt hgate,
              h2.symm, h2 ▸ hcond.1⟩
          · exact Or.inl hbest
      · exact Or.inr ⟨List.mem_cons_of_mem n hmem.1, hmem.2⟩

/-- **C2.** The fuzzy matcher returns a match only for a known name whose
lower-cased edit distance from the query is at most
`max(2, floor(len*0.3))`, and whose length passes the same gate; in
particular for the length-10 query against a length-10 name the gate is
3, edit distance 4 yields no match, and edit distance 3 yields a match
reporting that distance. -/
theorem findFuzzyMatch_gate :
    (∀ (query : String) (names : List String) (m : String) (d : Nat),
        findFuzzyMatch query names = some (m, d) →
        m ∈ names ∧
        ((m.length : Int) - (query.length : Int)).natAbs ≤
          fuzzyMaxDistance query ∧
        d = levenshtein (lowerStr query) (lowerStr m) ∧
        d ≤ fuzzyMaxDistance query) ∧
    fuzzyMaxDistance "aaaaaaaaaa" = 3 ∧
    levenshtein (lowerStr "aaaaaaaaaa") (lowerStr "bbbbaaaaaa") = 4 ∧
    findFuzzyMatch "aaaaaaaaaa" ["bbbbaaaaaa"] = none ∧
    levenshtein (lowerStr "aaaaaaaaaa") (lowerStr "bbbaaaaaaa") = 3 ∧
    findFuzzyMatch "aaaaaaaaaa" ["bbbaaaaaaa"] = some ("bbbaaaaaaa", 3) := by
  refine ⟨?_, by decide, by decide, by decide, by decide, by decide⟩
  intro query names m d h
  rcases fuzzy_foldl_sound query (fuzzyMaxDistance query) names none m d h with
    hbad | hok
  · exact absurd hbad (by simp)
  · exact hok

/-- Witness for C2's universal part: querying `grete` against known name
`greet` returns a match, and the theorem instantiates on it. -/
theorem findFuzzyMatch_gate_witness :
    "greet" ∈ ["greet"] ∧
    ((("greet" : String).length : Int) -
        (("grete" : String).length : Int)).natAbs ≤
      fuzzyMaxDistance "grete" ∧
    2 = levenshtein (lowerStr "grete") (lowerStr "greet") ∧
    2 ≤ fuzzyMaxDistance "grete" :=
  findFuzzyMatch_gate.1 "grete" ["greet"] "greet" 2 (by decide)

/-! ## The DP computes distance 0 on equal strings

The diagonal of the `levenshtein` matrix for `a = b` is identically `0`:
each diagonal cell copies the previous diagonal cell because the compared
characters are equal. -/

theorem getElem?_some_lt {α : Type} :
    ∀ (l : List α) (n : Nat) (a : α), l[n]? = some a → n < l.length := by
  intro l
  induction l with
  | nil => intro n a h; simp at h
  | cons x t ih =>
      intro n a h
      cases n with
      | zero => simp
      | succ m =>
          rw [List.getElem?_cons_succ] at h
          simpa using ih m a h

theorem getElem?_of_drop {α : Type} :
    ∀ (l : List α) (i : Nat) (c : α) (rest : List α),
      l.drop i = c :: rest → l[i]? = some c := by
  intro l
  induction l with
  | nil => intro i c rest h; simp at h
  | cons a t ih =>
      intro i c rest h
      cases i with
      | zero =>
          rw [List.drop_zero] at h
          cases h
          simp
      | succ j =>
          rw [List.getElem?_cons_succ]
          exact ih j c rest h

theorem drop_succ_of_drop {α : Type} :
    ∀ (l : List α) (i : Nat) (c : α) (rest : List α),
      l.drop i = c :: rest → l.drop (i + 1) = rest := by
  intro l
  induction l with
  | nil => intro i c rest h; simp at h
  | cons a t ih =>
      intro i c rest h
      cases i with
      | zero =>
          rw [List.drop_zero] at h
          cases h
          simp
      | succ j => exact ih j c rest h

theorem levRow_length (bi : Char) :
    ∀ (as : List Char) (prev : List Nat) (d l : Nat),
      (levRow bi as prev d l).length = min as.length prev.length := by
  intro as
  induction as with
  | nil => intro prev d l; simp [levRow]
  | cons a t ih =>
      intro prev d l
      cases prev with
      | nil => simp [levRow]
      | cons u pr =>
          simp only [levRow, List.length_cons, ih]
          omega

theorem levRow_getElem (bi : Char) :
    ∀ (j : Nat) (as : List Char) (prev : List Nat) (diag left : Nat),
      as[j]? = some bi → j < prev.length →
      (levRow bi as prev diag left)[j]? =
        (match j with
         | 0 => some diag
         | Nat.succ j' => prev[j']?) := by
  intro j
  induction j with
  | zero =>
      intro as prev diag left ha hp
      cases as with
      | nil => simp at ha
      | cons a as' =>
          cases prev with
          | nil => simp at hp
          | cons u pr =>
              have haa : a = bi := by simpa using ha
              subst haa
              simp [levRow]
  | succ j ih =>
      intro as prev diag left ha hp
      cases as with
      | nil => simp at ha
      | cons a as' =>
          cases prev with
          | nil => simp at hp
          | cons u pr =>
              have ha' : as'[j]? = some bi := by simpa using ha
              have hp' : j < pr.length := by simpa using hp
              simp only [levRow, List.getElem?_cons_succ]
              rw [ih as' pr u _ ha' hp']
              cases j <;> simp

theorem levRows_self (as : List Char) :
    ∀ (bs : List Char) (row : List Nat) (i : Nat),
      as.drop i = bs → row.length = as.length + 1 → row[i]? = some 0 →
      (levRows as bs row i).length = as.length + 1 ∧
      (levRows as bs row i)[as.length]? = some 0 := by
  intro bs
  induction bs with
  | nil =>
      intro row i hdrop hlen hi
      have hge : as.length ≤ i := by
        by_contra hlt
        push_neg at hlt
        have hne : as.drop i ≠ [] := by
          intro hdn
          have := List.length_drop i as ▸ congrArg List.length hdn
          simp at this
          omega
        exact hne hdrop
      have hlt : i < row.length := getElem?_some_lt row i 0 hi
      have hieq : i = as.length := by omega
      subst hieq
      exact ⟨hlen, hi⟩
  | cons bi brest ih =>
      intro row i hdrop hlen hi
      have hai : as[i]? = some bi := getElem?_of_drop as i bi brest hdrop
      have hdrop' : as.drop (i + 1) = brest := drop_succ_of_drop as i bi brest hdrop
      cases row with
      | nil => simp at hlen
      | cons r0 rt =>
          have htail_len : rt.length = as.length := by simpa using hlen
          have hilt : i < as.length := by
            have := getElem?_some_lt as i bi hai
            omega
          have hlen' : ((i + 1) :: levRow bi as rt r0 (i + 1)).length =
              as.length + 1 := by
            simp [levRow_length, htail_len]
          have hget' : ((i + 1) :: levRow bi as rt r0 (i + 1))[i + 1]? =
              some 0 := by
            rw [List.getElem?_cons_succ]
            rw [levRow_getElem bi i as rt r0 (i + 1) hai (by omega)]
            cases i with
            | zero =>
                have : r0 = 0 := by simpa using hi
                simp [this]
            | succ j => simpa using hi
          have := ih ((i + 1) :: levRow bi as rt r0 (i + 1)) (i + 1)
            hdrop' hlen' hget'
          simpa [levRows] using this

theorem getLastD_eq_zero :
    ∀ (l : List Nat) (d n : Nat), l.length = n + 1 → l[n]? = some 0 →
      l.getLastD d = 0 := by
  intro l
  induction l with
  | nil => intro d n h; simp at h
  | cons a t ih =>
      intro d n h hg
      cases t with
      | nil =>
          have hn : n = 0 := by simpa using h
          subst hn
          have : a = 0 := by simpa using hg
          simp [this]
      | cons b t' =>
          have hn : n = t'.length + 1 := by
            simp only [List.length_cons] at h
            omega
          have hstep : (a :: b :: t').getLastD d = (b :: t').getLastD a := rfl
          rw [hstep]
          apply ih a t'.length (by simp)
          rw [hn] at hg
          simpa using hg

/-- The DP returns 0 on a string against itself. -/
theorem levenshtein_self (s : String) : levenshtein s s = 0 := by
  unfold levenshtein
  by_cases h : s.toList.length = 0
  · rw [if_pos h]
    exact h
  · rw [if_neg h, if_neg h]
    obtain ⟨hlen, hget⟩ := levRows_self s.toList s.toList
      (List.range (s.toList.length + 1)) 0 (by simp) (by simp)
      (by simp [List.getElem?_range, Nat.pos_of_ne_zero h])
    exact getLastD_eq_zero _ 0 s.toList.length hlen hget

/-! ## Symbol classification (`checkSymbols`, project-index lines 596-638) -/

/-- The registry as `checkSymbols` receives it: ordered category maps. -/
abbrev CatRegistry := List (String × CategoryMap)

/-- `Set.add`: append the name unless already present (JS `Set` keeps
insertion order and deduplicates). -/
def addName (acc : List String) (n : String) : List String :=
  if acc.contains n then acc else acc ++ [n]

/-- The flat known-name set (lines 601-606): every key of every category,
in insertion order. -/
def allNamesOf (registry : CatRegistry) : List String :=
  registry.foldl (fun acc cat => cat.2.foldl (fun a p => addName a p.1) acc) []

theorem mem_addName {acc : List String} {n x : String}
    (h : x ∈ addName acc n) : x ∈ acc ∨ x = n := by
  unfold addName at h
  split at h
  · exact Or.inl h
  · rcases List.mem_append.mp h with h1 | h2
    · exact Or.inl h1
    · exact Or.inr (by simpa using h2)

theorem mem_foldl_addName (cmap : CategoryMap) :
    ∀ (acc : List String) (x : String),
      x ∈ cmap.foldl (fun a p => addName a p.1) acc →
      x ∈ acc ∨ (alookup cmap x).isSome := by
  induction cmap with
  | nil => intro acc x h; exact Or.inl h
  | cons p t ih =>
      intro acc x h
      obtain ⟨k, v⟩ := p
      rw [List.foldl_cons] at h
      rcases ih _ x h with hacc | hsome
      · rcases mem_addName hacc with h1 | h2
        · exact Or.inl h1
        · subst h2
          right
          simp [alookup]
      · right
        by_cases hk : k = x
        · simp [alookup, hk]
        · simpa [alookup, hk] using hsome

theorem mem_allNamesOf (registry : CatRegistry) (x : String)
    (hx : x ∈ allNamesOf registry) :
    ∃ p ∈ registry, (alookup p.2 x).isSome := by
  suffices h : ∀ (regs : CatRegistry) (acc : List String) (y : String),
      y ∈ regs.foldl
        (fun acc cat => cat.2.foldl (fun a p => addName a p.1) acc) acc →
      y ∈ acc ∨ ∃ p ∈ regs, (alookup p.2 y).isSome by
    rcases h registry [] x hx with h1 | h2
    · cases h1
    · exact h2
  intro regs
  induction regs with
  | nil => intro acc y h; exact Or.inl h
  | cons cat rest ih =>
      intro acc y h
      rw [List.foldl_cons] at h
      rcases ih _ y h with hacc | hex
      · rcases mem_foldl_addName cat.2 acc y hacc with h1 | h2
        · exact Or.inl h1
        · exact Or.inr ⟨cat, List.mem_cons_self _ _, h2⟩
      · obtain ⟨p, hp, hs⟩ := hex
        exact Or.inr ⟨p, List.mem_cons_of_mem _ hp, hs⟩

/-- The category-search loop (lines 610-615 / 619-629): walk the
categories in order and return the first one containing the name,
together with the stored entry. -/
def findCatEntry : CatRegistry → String → Option (String × SymbolInfo)
  | [], _ => none
  | (catName, cmap) :: rest, n =>
      match alookup cmap n with
      | some info => some (catName, info)
      | none => findCatEntry rest n

theorem findCatEntry_isSome (registry : CatRegistry) (x : String)
    (h : ∃ p ∈ registry, (alookup p.2 x).isSome) :
    (findCatEntry registry x).isSome := by
  induction registry with
  | nil => obtain ⟨p, hp, _⟩ := h; cases hp
  | cons q rest ih =>
      obtain ⟨k, cmap⟩ := q
      cases hl : alookup cmap x with
      | some info => simp [findCatEntry, hl]
      | none =>
          simp only [findCatEntry, hl]
          apply ih
          obtain ⟨p, hp, hs⟩ := h
          rcases List.mem_cons.mp hp with rfl | hmem
          · rw [hl] at hs
            simp at hs
          · exact ⟨p, hmem, hs⟩

/-- A confirmed entry pushed to `known`. -/
structure KnownHit where
  name : String
  category : String
  file : String
  line : Nat
  usages : Nat
deriving DecidableEq, Repr

/-- A suggestion pushed to `fuzzy`. -/
structure FuzzyHit where
  queried : String
  suggestion : String
  distance : Nat
  category : String
  file : String
  line : Nat
  usages : Nat
deriving DecidableEq, Repr

/-- The `{ known, fuzzy, unknown }` result of `checkSymbols`. -/
structure CheckResult where
  known : List KnownHit
  fuzzy : List FuzzyHit
  unknown : List String
deriving DecidableEq, Repr

/-- Classification of one queried name (lines 608-635): known when in the
flat name set (receiving the first containing category's entry), else a
fuzzy suggestion when `findFuzzyMatch` returns one, else unknown. The
source's silent no-category fall-through leaves the result untouched. -/
def checkSymbolsStep (registry : CatRegistry) (allNames : List String)
    (res : CheckResult) (name : String) : CheckResult :=
  if allNames.contains name then
    match findCatEntry registry name with
    | some (c, info) =>
        { res with known :=
            res.known ++ [⟨name, c, info.file, info.line, info.usages⟩] }
    | none => res
  else
    match findFuzzyMatch name allNames with
    | some (m, d) =>
        match findCatEntry registry m with
        | some (c, info) =>
            { res with fuzzy :=
                res.fuzzy ++ [⟨name, m, d, c, info.file, info.line,
                  info.usages⟩] }
        | none => res
    | none => { res with unknown := res.unknown ++ [name] }

/-- `checkSymbols(symbolNames, registry)` (lines 596-638). -/
def checkSymbols (symbolNames : List String) (registry : CatRegistry) :
    CheckResult :=
  symbolNames.foldl (checkSymbolsStep registry (allNamesOf registry))
    ⟨[], [], []⟩

theorem lowerStr_length (s : String) : (lowerStr s).length = s.length := by
  show (s.data.map Char.toLower).length = s.data.length
  exact List.length_map _ _

/-- The candidate fold returns a distance-0 match whenever a gate-passing
candidate at distance 0 exists in the list or the accumulator already
holds one. -/
theorem fuzzy_foldl_zero (q : String) (g : Nat) :
    ∀ (names : List String) (best : Option (String × Nat)),
      ((∃ n ∈ names, ((n.length : Int) - (q.length : Int)).natAbs ≤ g ∧
          levenshtein (lowerStr q) (lowerStr n) = 0) ∨
        (∃ m0, best = some (m0, 0))) →
      ∃ m, names.foldl (fuzzyStep q g) best = some (m, 0) := by
  intro names
  induction names with
  | nil =>
      intro best h
      rcases h with ⟨n, hn, _⟩ | ⟨m0, hb⟩
      · cases hn
      · exact ⟨m0, by simpa using hb⟩
  | cons n rest ih =>
      intro best h
      rw [List.foldl_cons]
      apply ih
      rcases h with ⟨n0, hn0, hgate, hzero⟩ | ⟨m0, hb⟩
      · rcases List.mem_cons.mp hn0 with rfl | hmem
        · right
          unfold fuzzyStep
          rw [if_neg (not_lt.mpr hgate), hzero]
          cases best with
          | none => exact ⟨n0, by simp [beatsBest]⟩
          | some b =>
              obtain ⟨b1, b2⟩ := b
              by_cases hb2 : b2 = 0
              · subst hb2
                exact ⟨b1, by rw [if_neg (by simp [beatsBest])]⟩
              · exact ⟨n0, by
                  rw [if_pos (by
                    simp [beatsBest, Nat.pos_of_ne_zero hb2])]⟩
        · left
          exact ⟨n0, hmem, hgate, hzero⟩
      · right
        subst hb
        unfold fuzzyStep
        split
        · exact ⟨m0, rfl⟩
        · refine ⟨m0, ?_⟩
          rw [if_neg (by simp [beatsBest])]

/-- **C9.** A queried name absent from the registry (case-sensitively)
that agrees with some known name up to letter case is classified as a
fuzzy match with distance 0 — neither known nor unknown — because the
edit distance is computed on lower-cased strings while membership is
case-sensitive. -/
theorem checkSymbols_case_insensitive (registry : CatRegistry) (q : String)
    (hnotin : (allNamesOf registry).contains q = false)
    (hcase : ∃ n ∈ allNamesOf registry, lowerStr q = lowerStr n) :
    ∃ (m c : String) (info : SymbolInfo), m ∈ allNamesOf registry ∧
      checkSymbols [q] registry =
        ⟨[], [⟨q, m, 0, c, info.file, info.line, info.usages⟩], []⟩ := by
  obtain ⟨n, hn, hlow⟩ := hcase
  have hlen : n.length = q.length := by
    have := congrArg String.length hlow
    rw [lowerStr_length, lowerStr_length] at this
    exact this.symm
  have hgate : ((n.length : Int) - (q.length : Int)).natAbs ≤
      fuzzyMaxDistance q := by
    simp [hlen]
  have hzero : levenshtein (lowerStr q) (lowerStr n) = 0 := by
    rw [hlow]
    exact levenshtein_self (lowerStr n)
  obtain ⟨m, hm⟩ := fuzzy_foldl_zero q (fuzzyMaxDistance q)
    (allNamesOf registry) none (Or.inl ⟨n, hn, hgate, hzero⟩)
  have hsound := fuzzy_foldl_sound q (fuzzyMaxDistance q)
    (allNamesOf registry) none m 0 hm
  have hmem : m ∈ allNamesOf registry := by
    rcases hsound with h | h
    · simp at h
    · exact h.1
  have hcat : (findCatEntry registry m).isSome :=
    findCatEntry_isSome registry m (mem_allNamesOf registry m hmem)
  obtain ⟨⟨c, info⟩, hc⟩ := Option.isSome_iff_exists.mp hcat
  refine ⟨m, c, info, hmem, ?_⟩
  show checkSymbolsStep registry (allNamesOf registry) ⟨[], [], []⟩ q = _
  unfold checkSymbolsStep
  rw [hnotin]
  have hfm : findFuzzyMatch q (allNamesOf registry) = some (m, 0) := hm
  simp [hfm, hc]

/-- Witness for C9: registry knows `Greet`; querying `greet` produces a
distance-0 fuzzy suggestion. -/
theorem checkSymbols_case_insensitive_witness :
    ∃ (m c : String) (info : SymbolInfo), m ∈ allNamesOf [("functions",
        [("Greet", (⟨"a.js", 1, 1⟩ : SymbolInfo))])] ∧
      checkSymbols ["greet"]
          [("functions", [("Greet", (⟨"a.js", 1, 1⟩ : SymbolInfo))])] =
        ⟨[], [⟨"greet", m, 0, c, info.file, info.line, info.usages⟩], []⟩ :=
  checkSymbols_case_insensitive
    [("functions", [("Greet", (⟨"a.js", 1, 1⟩ : SymbolInfo))])] "greet"
    (by decide) (by decide)

/-! ## The full registry and the Python heuristic extractor
(project-index, lines 385-407) -/

/-- One `htmlPages` entry (lines 485-489). -/
structure PageInfo where
  file : String
  title : String
  scripts : List String
deriving DecidableEq, Repr

/-- The `symbols` record built by a scan (lines 54-61). -/
structure Registry where
  functions : CategoryMap
  classes : CategoryMap
  /-- The source's `variables` category (`variables` is reserved in Lean). -/
  vars : CategoryMap
  exports : CategoryMap
  apiRoutes : RouteTable
  htmlPages : List (String × PageInfo)
deriving DecidableEq, Repr

/-- The empty registry a scan starts from. -/
def emptyRegistry : Registry := ⟨[], [], [], [], [], []⟩

/-- JS `\s` on the characters occurring in source lines. -/
def wsChar (c : Char) : Bool :=
  c = ' ' || c = '\t' || c = '\n' || c = '\r' || c = '\x0B' || c = '\x0C'

/-- Strip an exact prefix, or fail. -/
def dropPrefixCh : List Char → List Char → Option (List Char)
  | [], rest => some rest
  | _ :: _, [] => none
  | p :: ps, c :: cs => if p = c then dropPrefixCh ps cs else none

/-- The part `def\s+(\w+)\s*\(` of the Python definition regexes, matched
from the given position: `def`, whitespace, a captured word, optional
whitespace and an opening parenthesis. -/
def pyDefCore (cs : List Char) : Option String :=
  match dropPrefixCh "def".toList cs with
  | none => none
  | some [] => none
  | some (c :: r') =>
      if wsChar c then
        if ((r'.dropWhile wsChar).takeWhile isWordChar).isEmpty then none
        else
          match ((r'.dropWhile wsChar).dropWhile isWordChar).dropWhile
              wsChar with
          | '(' :: _ =>
              some (String.mk ((r'.dropWhile wsChar).takeWhile isWordChar))
          | _ => none
      else none

/-- `(?:async\s+)?def\s+(\w+)\s*\(`: an optional `async` followed by
whitespace and then the `def` pattern; when `async` is present but not
followed by whitespace the optional group does not participate and the
`def` pattern is matched at the original position (where it necessarily
fails, exactly as the regex does). -/
def pyDefAfter (cs : List Char) : Option String :=
  match dropPrefixCh "async".toList cs with
  | some (c :: r') =>
      if wsChar c then pyDefCore (r'.dropWhile wsChar) else pyDefCore cs
  | some [] => pyDefCore cs
  | none => pyDefCore cs

/-- `/^(?:async\s+)?def\s+(\w+)\s*\(/` (line 390). -/
def matchPyFuncDef (line : String) : Option String :=
  pyDefAfter line.toList

/-- `/^class\s+(\w+)[\s(:]/` (line 393). -/
def matchPyClassDef (line : String) : Option String :=
  match dropPrefixCh "class".toList line.toList with
  | none => none
  | some [] => none
  | some (c :: r') =>
      if wsChar c then
        if ((r'.dropWhile wsChar).takeWhile isWordChar).isEmpty then none
        else
          match (r'.dropWhile wsChar).dropWhile isWordChar with
          | d :: _ =>
              if wsChar d || d = '(' || d = ':' then
                some (String.mk ((r'.dropWhile wsChar).takeWhile isWordChar))
              else none
          | [] => none
      else none

/-- `/^\s+(?:async\s+)?def\s+(\w+)\s*\(/` (line 396): an indented
(method) definition. -/
def matchPyMethodDef (line : String) : Option String :=
  match line.toList with
  | c :: rest =>
      if wsChar c then pyDefAfter (rest.dropWhile wsChar) else none
  | [] => none

/-- `/^(\w+)\s*(?::\s*\w+\s*)?=/` (line 402): a top-level assignment,
optionally with a one-word type annotation. -/
def matchPyVarAssign (line : String) : Option String :=
  if (line.toList.takeWhile isWordChar).isEmpty then none
  else
    match (line.toList.dropWhile isWordChar).dropWhile wsChar with
    | '=' :: _ => some (String.mk (line.toList.takeWhile isWordChar))
    | ':' :: r2 =>
        if ((r2.dropWhile wsChar).takeWhile isWordChar).isEmpty then none
        else
          match ((r2.dropWhile wsChar).dropWhile
              isWordChar).dropWhile wsChar with
          | '=' :: _ => some (String.mk (line.toList.takeWhile isWordChar))
          | _ => none
    | _ => none

/-- The variable-assignment tail of the Python line scan (lines 402-405):
add the assignment target as a variable only when it equals its own
upper-casing (the ALL-CAPS constant heuristic). -/
def pyVarCase (filePath : String) (syms : Registry) (line : String)
    (lineNum : Nat) : Registry :=
  match matchPyVarAssign line with
  | some name =>
      if upperStr name = name then
        { syms with vars := addSymbol syms.vars name filePath lineNum }
      else syms
  | none => syms

/-- One line of `extractPython` (lines 386-406), with the source's
check-and-continue cascade: function definition, class definition,
indented method definition filtered to non-underscore names (a matching
underscore method falls through to the assignment check, as in the
source), then the constant heuristic. -/
def pyLine (filePath : String) (syms : Registry) (line : String)
    (lineNum : Nat) : Registry :=
  match matchPyFuncDef line with
  | some name =>
      { syms with functions := addSymbol syms.functions name filePath lineNum }
  | none =>
      match matchPyClassDef line with
      | some name =>
          { syms with classes := addSymbol syms.classes name filePath lineNum }
      | none =>
          match matchPyMethodDef line with
          | some name =>
              if strStartsWith name "_" = false then
                { syms with functions :=
                    addSymbol syms.functions name filePath lineNum }
              else pyVarCase filePath syms line lineNum
          | none => pyVarCase filePath syms line lineNum

/-- The indexed loop of `extractPython`: `lineNum = i + 1`. -/
def extractPythonFrom (filePath : String) :
    List String → Nat → Registry → Registry
  | [], _, syms => syms
  | l :: rest, i, syms =>
      extractPythonFrom filePath rest (i + 1) (pyLine filePath syms l (i + 1))

/-- `extractPython(filePath, lines, symbols)` (lines 385-407). -/
def extractPython (filePath : String) (lines : List String)
    (syms : Registry) : Registry :=
  extractPythonFrom filePath lines 0 syms

theorem dropPrefixCh_eq_some :
    ∀ (p cs r : List Char), dropPrefixCh p cs = some r → cs = p ++ r := by
  intro p
  induction p with
  | nil =>
      intro cs r h
      simp only [dropPrefixCh, Option.some.injEq] at h
      simpa using h
  | cons x xs ih =>
      intro cs r h
      cases cs with
      | nil => simp [dropPrefixCh] at h
      | cons c cs' =>
          simp only [dropPrefixCh] at h
          split at h
          · rename_i hx
            simp [hx, ih cs' r h]
          · cases h

theorem wsChar_not_word (c : Char) (h : wsChar c = true) :
    isWordChar c = false := by
  simp only [wsChar, Bool.or_eq_true, decide_eq_true_eq] at h
  rcases h with ((((h | h) | h) | h) | h) | h <;> subst h <;> decide

theorem takeWhile_append_word (p : List Char)
    (hp : ∀ x ∈ p, isWordChar x = true) (c : Char)
    (hc : isWordChar c = false) (rest : List Char) :
    ((p ++ c :: rest).takeWhile isWordChar) = p := by
  induction p with
  | nil => simp [List.takeWhile_cons, hc]
  | cons x xs ih =>
      simp [List.cons_append, List.takeWhile_cons,
        hp x (List.mem_cons_self x xs),
        ih fun y hy => hp y (List.mem_cons_of_mem x hy)]

theorem pyDefCore_leading (cs : List Char) (m : String)
    (h : pyDefCore cs = some m) :
    cs.takeWhile isWordChar = "def".toList := by
  unfold pyDefCore at h
  cases hd : dropPrefixCh "def".toList cs with
  | none => rw [hd] at h; cases h
  | some r =>
      simp only [hd] at h
      cases r with
      | nil => cases h
      | cons c r' =>
          by_cases hw : wsChar c
          · rw [dropPrefixCh_eq_some _ _ _ hd]
            exact takeWhile_append_word _ (by decide) c
              (wsChar_not_word c hw) r'
          · simp only [hw, Bool.false_eq_true, if_false] at h
            cases h

theorem pyDefAfter_leading (cs : List Char) (m : String)
    (h : pyDefAfter cs = some m) :
    cs.takeWhile isWordChar = "def".toList ∨
      cs.takeWhile isWordChar = "async".toList := by
  unfold pyDefAfter at h
  cases ha : dropPrefixCh "async".toList cs with
  | none =>
      simp only [ha] at h
      exact Or.inl (pyDefCore_leading cs m h)
  | some r =>
      simp only [ha] at h
      cases r with
      | nil => exact Or.inl (pyDefCore_leading cs m h)
      | cons c r' =>
          by_cases hw : wsChar c
          · rw [dropPrefixCh_eq_some _ _ _ ha]
            exact Or.inr (takeWhile_append_word _ (by decide) c
              (wsChar_not_word c hw) r')
          · simp only [hw, Bool.false_eq_true, if_false] at h
            exact Or.inl (pyDefCore_leading cs m h)

theorem matchPyClassDef_leading (l : String) (m : String)
    (h : matchPyClassDef l = some m) :
    l.toList.takeWhile isWordChar = "class".toList := by
  unfold matchPyClassDef at h
  cases hc : dropPrefixCh "class".toList l.toList with
  | none => rw [hc] at h; cases h
  | some r =>
      simp only [hc] at h
      cases r with
      | nil => cases h
      | cons c r' =>
          by_cases hw : wsChar c
          · rw [dropPrefixCh_eq_some _ _ _ hc]
            exact takeWhile_append_word _ (by decide) c
              (wsChar_not_word c hw) r'
          · simp only [hw, Bool.false_eq_true, if_false] at h
            cases h

theorem matchPyVarAssign_name (l : String) (name : String)
    (h : matchPyVarAssign l = some name) :
    name = String.mk (l.toList.takeWhile isWordChar) := by
  unfold matchPyVarAssign at h
  split at h
  · cases h
  · split at h
    · exact (Option.some.injEq .. ▸ h).symm
    · split at h
      · cases h
      · split at h
        · exact (Option.some.injEq .. ▸ h).symm
        · cases h
    · cases h

theorem matchPyMethodDef_varAssign_none (l : String) (m : String)
    (h : matchPyMethodDef l = some m) : matchPyVarAssign l = none := by
  unfold matchPyMethodDef at h
  unfold matchPyVarAssign
  cases hl : l.toList with
  | nil => rw [hl] at h; cases h
  | cons c rest =>
      rw [hl] at h
      have h' : (if wsChar c = true then
          pyDefAfter (rest.dropWhile wsChar) else none) = some m := h
      cases hw : wsChar c with
      | false =>
          rw [hw] at h'
          simp at h'
      | true => simp [List.takeWhile_cons, wsChar_not_word c hw]

/-- A top-level ALL-CAPS assignment line never matches the definition
patterns: its leading word equals its own upper-casing while the
definition patterns force the leading word to be `def`, `async` or
`class`. -/
theorem pyLine_const_line (filePath : String) (syms : Registry)
    (line : String) (lineNum : Nat) (name : String)
    (hvar : matchPyVarAssign line = some name)
    (hupper : upperStr name = name) :
    pyLine filePath syms line lineNum =
      pyVarCase filePath syms line lineNum := by
  have hname := matchPyVarAssign_name line name hvar
  unfold pyLine
  cases hf : matchPyFuncDef line with
  | some m =>
      exfalso
      rcases pyDefAfter_leading line.toList m hf with hl | hl <;>
        · rw [hl] at hname
          subst hname
          exact absurd hupper (by decide)
  | none =>
      cases hcl : matchPyClassDef line with
      | some m =>
          exfalso
          have hl := matchPyClassDef_leading line m hcl
          rw [hl] at hname
          subst hname
          exact absurd hupper (by decide)
      | none =>
          cases hm : matchPyMethodDef line with
          | some m =>
              exfalso
              rw [matchPyMethodDef_varAssign_none line m hm] at hvar
              cases hvar
          | none => rfl

theorem addSymbol_isSome_self (category : CategoryMap) (name file : String)
    (line : Nat) : (alookup (addSymbol category name file line) name).isSome := by
  cases h : alookup category name with
  | none => rw [addSymbol_lookup_new category name file line h]; rfl
  | some e => rw [addSymbol_lookup_bump category name file line e h]; rfl

theorem addSymbol_preserves_isSome (category : CategoryMap)
    (name file : String) (line : Nat) (n : String)
    (h : (alookup category n).isSome) :
    (alookup (addSymbol category name file line) n).isSome := by
  by_cases he : n = name
  · subst he
    exact addSymbol_isSome_self category n file line
  · rwa [addSymbol_lookup_ne category name file line n he]

theorem pyVarCase_preserves (filePath : String) (syms : Registry)
    (line : String) (lineNum : Nat) (n : String)
    (h : (alookup syms.vars n).isSome) :
    (alookup (pyVarCase filePath syms line lineNum).vars n).isSome := by
  unfold pyVarCase
  cases matchPyVarAssign line with
  | none => exact h
  | some name =>
      by_cases hu : upperStr name = name
      · simpa [hu] using addSymbol_preserves_isSome syms.vars name
          filePath lineNum n h
      · simpa [hu] using h

theorem pyLine_preserves (filePath : String) (syms : Registry)
    (line : String) (lineNum : Nat) (n : String)
    (h : (alookup syms.vars n).isSome) :
    (alookup (pyLine filePath syms line lineNum).vars n).isSome := by
  unfold pyLine
  cases matchPyFuncDef line with
  | some name => exact h
  | none =>
      cases matchPyClassDef line with
      | some name => exact h
      | none =>
          cases matchPyMethodDef line with
          | some name =>
              by_cases hu : strStartsWith name "_" = false
              · simpa [hu] using h
              · simp only [hu, if_false]
                exact pyVarCase_preserves filePath syms line lineNum n h
          | none => exact pyVarCase_preserves filePath syms line lineNum n h

theorem extractPythonFrom_preserves (filePath : String) :
    ∀ (lines : List String) (i : Nat) (syms : Registry) (n : String),
      (alookup syms.vars n).isSome →
      (alookup (extractPythonFrom filePath lines i syms).vars n).isSome := by
  intro lines
  induction lines with
  | nil => intro i syms n h; exact h
  | cons l rest ih =>
      intro i syms n h
      exact ih (i + 1) _ n (pyLine_preserves filePath syms l (i + 1) n h)

theorem extractPythonFrom_const (filePath : String) :
    ∀ (lines : List String) (i0 i : Nat) (l name : String) (syms : Registry),
      lines[i]? = some l → matchPyVarAssign l = some name →
      upperStr name = name →
      (alookup (extractPythonFrom filePath lines i0 syms).vars name).isSome := by
  intro lines
  induction lines with
  | nil => intro i0 i l name syms h; simp at h
  | cons l0 rest ih =>
      intro i0 i l name syms hget hvar hupper
      cases i with
      | zero =>
          have hl : l = l0 := by simpa using hget.symm
          subst hl
          show (alookup (extractPythonFrom filePath rest (i0 + 1)
              (pyLine filePath syms l (i0 + 1))).vars name).isSome
          apply extractPythonFrom_preserves
          rw [pyLine_const_line filePath syms l (i0 + 1) name hvar hupper]
          unfold pyVarCase
          rw [hvar]
          simp only [hupper, if_true]
          exact addSymbol_isSome_self syms.vars name filePath (i0 + 1)
      | succ j =>
          have hget' : rest[j]? = some l := by simpa using hget
          exact ih (i0 + 1) j l name _ hget' hvar hupper

/-- C7 as written is false: the underscore filter guards only the
indented-method pattern; a top-level `def _hidden(x):` IS added to the
function category. -/
theorem extractPython_underscore_counterexample :
    alookup ((extractPython "m.py" ["def _hidden(x):"]
        emptyRegistry).functions) "_hidden" = some ⟨"m.py", 1, 1⟩ := by
  decide

/-- **C7 (amended).** The Python extractor excludes underscore-prefixed
names from the function category only for indented (method) definitions;
a top-level underscore definition is still indexed. A top-level
assignment whose target equals its own upper-casing is added to the
variable category. The concrete run shows `_hidden` (top level) indexed,
`_priv` (indented) dropped, `ok` (indented) indexed, `MAX_RETRIES` added
as a variable and `lower_var` ignored; the universal part shows every
ALL-CAPS top-level assignment line lands in the variable category. -/
theorem extractPython_underscore_amended :
    extractPython "m.py"
        ["def _hidden(x):", "    def _priv(self):", "    def ok(self):",
          "MAX_RETRIES = 3", "lower_var = 1"] emptyRegistry =
      ⟨[("_hidden", ⟨"m.py", 1, 1⟩), ("ok", ⟨"m.py", 3, 1⟩)], [],
        [("MAX_RETRIES", ⟨"m.py", 4, 1⟩)], [], [], []⟩ ∧
    (∀ (filePath : String) (lines : List String) (i : Nat)
        (l name : String) (syms : Registry), lines[i]? = some l →
        matchPyVarAssign l = some name → upperStr name = name →
        (alookup (extractPython filePath lines syms).vars name).isSome) := by
  refine ⟨by decide, ?_⟩
  intro filePath lines i l name syms hget hvar hupper
  exact extractPythonFrom_const filePath lines 0 i l name syms hget hvar
    hupper

/-- Witness for C7's universal part: the line `MAX = 1` puts `MAX` in the
variable category. -/
theorem extractPython_underscore_amended_witness :
    (alookup (extractPython "c.py" ["MAX = 1"] emptyRegistry).vars
      "MAX").isSome :=
  extractPython_underscore_amended.2 "c.py" ["MAX = 1"] 0 "MAX = 1" "MAX"
    emptyRegistry (by decide) (by decide) (by decide)

/-! ## HTML page entries (extractHtml, lines 484-489) -/

/-- `path.basename(p)`: the segment after the last `/`. -/
def pathBasename (p : String) : String :=
  String.mk ((p.toList.reverse.takeWhile (fun c => c ≠ '/')).reverse)

/-- JS `a || b` on a possibly-absent string: the right operand replaces
both a missing and an empty (falsy) left operand. -/
def jsOrStr (a : Option String) (b : String) : String :=
  match a with
  | some t => if t = "" then b else t
  | none => b

/-- JS property assignment `obj[name] = info`: overwrite in place when
the key exists (keeping its enumeration position), else append. -/
def setPage (pages : List (String × PageInfo)) (name : String)
    (info : PageInfo) : List (String × PageInfo) :=
  match alookup pages name with
  | none => pages ++ [(name, info)]
  | some _ => pages.map fun p => if p.1 = name then (p.1, info) else p

/-- The page-recording tail of `extractHtml` (lines 484-489):
`symbols.htmlPages[basename] = { file, title: title || name, scripts }`,
with the title and external script list already computed by the earlier
regex scans of the markup. -/
def recordHtmlPage (filePath : String) (title : Option String)
    (scripts : List String) (syms : Registry) : Registry :=
  { syms with
      htmlPages := setPage syms.htmlPages (pathBasename filePath)
        ⟨filePath, jsOrStr title (pathBasename filePath), scripts⟩ }

theorem alookup_map_set {α : Type} (name : String) (v : α) :
    ∀ (l : List (String × α)),
      alookup (l.map fun p => if p.1 = name then (p.1, v) else p) name =
        (alookup l name).map (fun _ => v) := by
  intro l
  induction l with
  | nil => simp [alookup]
  | cons p t ih =>
      obtain ⟨k, w⟩ := p
      by_cases hk : k = name
      · subst hk
        simp only [List.map_cons, if_pos rfl]
        simp [alookup]
      · simp only [List.map_cons, if_neg hk]
        simp [alookup, hk, ih]

/-- After `setPage`, looking the key up yields exactly the new info. -/
theorem setPage_lookup (pages : List (String × PageInfo)) (name : String)
    (info : PageInfo) : alookup (setPage pages name info) name = some info := by
  unfold setPage
  cases h : alookup pages name with
  | none =>
      rw [alookup_append, h]
      simp [alookup]
  | some e => rw [alookup_map_set, h]; rfl

/-- **C10.** The page category is keyed by base name and each markup
file's extraction overwrites the entry for its base name: scanning two
files with equal base names leaves only the later file's page entry
(last-wins). Every other category goes through `addSymbol`, where the
second occurrence of a name keeps the first occurrence's file and line
and only increments the count (first-wins). -/
theorem htmlPages_basename_last_wins :
    (∀ (syms : Registry) (p1 p2 : String) (t1 t2 : Option String)
        (s1 s2 : List String), pathBasename p1 = pathBasename p2 →
        alookup ((recordHtmlPage p2 t2 s2
            (recordHtmlPage p1 t1 s1 syms)).htmlPages) (pathBasename p2) =
          some ⟨p2, jsOrStr t2 (pathBasename p2), s2⟩) ∧
    (∀ (cat : CategoryMap) (n f1 : String) (l1 : Nat) (f2 : String)
        (l2 : Nat), alookup cat n = none →
        alookup (addSymbol (addSymbol cat n f1 l1) n f2 l2) n =
          some ⟨f1, l1, 2⟩) := by
  constructor
  · intro syms p1 p2 t1 t2 s1 s2 _
    show alookup (setPage (recordHtmlPage p1 t1 s1 syms).htmlPages
      (pathBasename p2) _) (pathBasename p2) = _
    exact setPage_lookup _ _ _
  · intro cat n f1 l1 f2 l2 h
    rw [addSymbol_lookup_bump _ n f2 l2 ⟨f1, l1, 1⟩
      (addSymbol_lookup_new cat n f1 l1 h)]
    rfl

/-- Witness for C10: `admin/index.html` then `public/index.html` — the
page entry for `index.html` is the later file's; `greet` added twice
keeps the first file/line with count 2. -/
theorem htmlPages_basename_last_wins_witness :
    alookup ((recordHtmlPage "public/index.html" none ["b.js"]
        (recordHtmlPage "admin/index.html" none ["a.js"]
          emptyRegistry)).htmlPages) (pathBasename "public/index.html") =
      some ⟨"public/index.html",
        jsOrStr none (pathBasename "public/index.html"), ["b.js"]⟩ ∧
    alookup (addSymbol (addSymbol [] "greet" "file1" 3) "greet" "file2" 9)
      "greet" = some ⟨"file1", 3, 2⟩ :=
  ⟨htmlPages_basename_last_wins.1 emptyRegistry "admin/index.html"
      "public/index.html" none none ["a.js"] ["b.js"] (by decide),
    htmlPages_basename_last_wins.2 [] "greet" "file1" 3 "file2" 9 rfl⟩

/-! ## Raw-source-line scan of `extractAstSymbols` (lines 288-333)

The AST queries of `extractAstSymbols` run against the external
syntax-tree service; the legacy-export and route patterns are plain
line scans, embedded here in full. The `lineOffset` parameter of
`extractAstSymbols` is in scope for the scan but — unlike every
AST-based extraction in the same function — is NOT added to the
recorded line `i + 1`. -/

/-- `(\w+)\s*=` after the `exports.` prefix. -/
def exportsTail (cs : List Char) : Option String :=
  if (cs.takeWhile isWordChar).isEmpty then none
  else
    match (cs.dropWhile isWordChar).dropWhile wsChar with
    | '=' :: _ => some (String.mk (cs.takeWhile isWordChar))
    | _ => none

/-- `/^(?:module\.)?exports\.(\w+)\s*=/` (line 295). -/
def matchMemberExport (line : String) : Option String :=
  match dropPrefixCh "module.exports.".toList line.toList with
  | some r => exportsTail r
  | none =>
      match dropPrefixCh "exports.".toList line.toList with
      | some r => exportsTail r
      | none => none

/-- `String.prototype.trim`. -/
def jsTrim (s : String) : String :=
  String.mk (((s.toList.dropWhile wsChar).reverse.dropWhile wsChar).reverse)

/-- `s.split(/[:\s]/)[0]`: the prefix before the first colon or space. -/
def splitHead (s : String) : String :=
  String.mk (s.toList.takeWhile (fun c => !(c = ':' || wsChar c)))

/-- `bulkExport[1].split(',').map(s => s.trim().split(/[:\s]/)[0].trim())`
(line 304). -/
def parseBulkNames (inner : String) : List String :=
  (strSplitOn inner ',').map fun s => jsTrim (splitHead (jsTrim s))

/-- The `name && /^\w+$/.test(name)` filter (line 306). -/
def isValidWordName (name : String) : Bool :=
  name ≠ "" && name.toList.all isWordChar

/-- `/^module\.exports\s*=\s*\{([^}]+)\}/` (line 302), returning the
parsed candidate names. -/
def matchBulkExport (line : String) : Option (List String) :=
  match dropPrefixCh "module.exports".toList line.toList with
  | none => none
  | some r =>
      match r.dropWhile wsChar with
      | '=' :: r2 =>
          match r2.dropWhile wsChar with
          | '{' :: r3 =>
              if (r3.takeWhile (fun c => c ≠ '}')).isEmpty then none
              else
                match r3.dropWhile (fun c => c ≠ '}') with
                | '}' :: _ =>
                    some (parseBulkNames
                      (String.mk (r3.takeWhile (fun c => c ≠ '}'))))
                | _ => none
          | _ => none
      | _ => none

/-- `['"`]` — the three JS quote characters (the backquote is written by
codepoint). -/
def isQuote (c : Char) : Bool := c = '\'' || c = '"' || c = Char.ofNat 96

/-- The verb alternation `(get|post|put|delete|patch)`. -/
def matchVerb (cs : List Char) : Option (String × List Char) :=
  match dropPrefixCh "get".toList cs with
  | some r => some ("get", r)
  | none =>
      match dropPrefixCh "post".toList cs with
      | some r => some ("post", r)
      | none =>
          match dropPrefixCh "put".toList cs with
          | some r => some ("put", r)
          | none =>
              match dropPrefixCh "delete".toList cs with
              | some r => some ("delete", r)
              | none =>
                  match dropPrefixCh "patch".toList cs with
                  | some r => some ("patch", r)
                  | none => none

/-- A quoted literal `['"`]([^'"`]+)['"`]`: an opening quote, one or more
non-quote characters, a closing quote (any of the three). -/
def quotedLiteral (cs : List Char) : Option String :=
  match cs with
  | q :: r =>
      if isQuote q then
        if (r.takeWhile (fun c => !isQuote c)).isEmpty then none
        else
          match r.dropWhile (fun c => !isQuote c) with
          | _ :: _ => some (String.mk (r.takeWhile (fun c => !isQuote c)))
          | [] => none
      else none
  | [] => none

/-- `(?:router|app)\.(verb)\s*\(\s*['"`]([^'"`]+)['"`]` tried at one
position (line 313). -/
def tryRouteAt (cs : List Char) : Option (String × String) :=
  match
    (match dropPrefixCh "router.".toList cs with
      | some r => some r
      | none => dropPrefixCh "app.".toList cs) with
  | none => none
  | some r =>
      match matchVerb r with
      | none => none
      | some (verb, r2) =>
          match r2.dropWhile wsChar with
          | '(' :: r3 =>
              match quotedLiteral (r3.dropWhile wsChar) with
              | some path => some (verb, path)
              | none => none
          | _ => none

/-- `app\.use\s*\(\s*['"`]([^'"`]+)['"`]` tried at one position
(line 325). -/
def tryMountAt (cs : List Char) : Option String :=
  match dropPrefixCh "app.use".toList cs with
  | none => none
  | some r =>
      match r.dropWhile wsChar with
      | '(' :: r3 => quotedLiteral (r3.dropWhile wsChar)
      | _ => none

/-- Unanchored regex search: try the matcher at every position, leftmost
match wins. -/
def searchAt {α : Type} (f : List Char → Option α) : List Char → Option α
  | [] => f []
  | c :: rest =>
      match f (c :: rest) with
      | some r => some r
      | none => searchAt f rest

/-- First-wins insertion into the route table
(`if (!symbols.apiRoutes[key])`, lines 318 and 329). -/
def addRoute (routes : RouteTable) (key : String) (info : RouteInfo) :
    RouteTable :=
  match alookup routes key with
  | none => routes ++ [(key, info)]
  | some _ => routes

/-- The loop body of the bulk-export branch (lines 305-309): add each
parsed name passing the word filter. -/
def bulkAddNames (filePath : String) (lineNum : Nat) (names : List String)
    (ex : CategoryMap) : CategoryMap :=
  names.foldl
    (fun ex name =>
      if isValidWordName name then addSymbol ex name filePath lineNum
      else ex) ex

/-- One line of the raw-line scan (lines 291-333): a member-export match
continues to the next line; a bulk-export match falls through to the
route patterns; a route match continues past the mount pattern; a mount
is recorded only under the `/api` prefix. All four record `i + 1` — the
surrounding function's `lineOffset` is NOT added here. -/
def lineScanStep (filePath : String) (syms : Registry) (line : String)
    (i : Nat) : Registry :=
  match matchMemberExport line with
  | some name =>
      { syms with exports := addSymbol syms.exports name filePath (i + 1) }
  | none =>
      let afterBulk :=
        match matchBulkExport line with
        | some names =>
            { syms with
                exports := bulkAddNames filePath (i + 1) names syms.exports }
        | none => syms
      match searchAt tryRouteAt line.toList with
      | some (verb, routePath) =>
          { afterBulk with
              apiRoutes := addRoute afterBulk.apiRoutes
                              (upperStr verb ++ " " ++ routePath)
                              ⟨filePath, i + 1, upperStr verb, routePath⟩ }
      | none =>
          match searchAt tryMountAt line.toList with
          | some mountPath =>
              if strStartsWith mountPath "/api" then
                { afterBulk with
                    apiRoutes := addRoute afterBulk.apiRoutes
                                    ("MOUNT " ++ mountPath)
                                    ⟨filePath, i + 1, "MOUNT", mountPath⟩ }
              else afterBulk
          | none => afterBulk

/-- The scan loop over `root.text().split('\n')` (lines 290-333).
`lineOffset` is the parameter of `extractAstSymbols`; this part of the
source never reads it. -/
def astLineScan (filePath : String) (lineOffset : Nat) :
    List String → Nat → Registry → Registry
  | [], _, syms => syms
  | l :: rest, i, syms =>
      astLineScan filePath lineOffset rest (i + 1)
        (lineScanStep filePath syms l i)

/-- **C5** is a code bug: for an inline script block handed to the
extractor with a non-zero line offset, the raw-line scans record the
block-relative line `i + 1` with no offset added — here an
`exports.doStuff` assignment on block line 2 of a block starting at
document line 10 is recorded at line 2, and an `app.get` route on block
line 2 likewise, where the claim (and every AST-based extraction in the
same function) would record 2 + 10. -/
theorem astLineScan_drops_offset :
    alookup ((astLineScan "page.html" 10 ["", "exports.doStuff = 1"] 0
        emptyRegistry).exports) "doStuff" = some ⟨"page.html", 2, 1⟩ ∧
    alookup ((astLineScan "page.html" 10 ["", "app.get('/api/x', h)"] 0
        emptyRegistry).apiRoutes) "GET /api/x" =
      some ⟨"page.html", 2, "GET", "/api/x"⟩ ∧
    (2 : Nat) ≠ 2 + 10 := by
  refine ⟨by decide, by decide, by decide⟩

/-! ## JS heuristic extractor (`extractJsRegex`, lines 357-383) and the
inline-script fallback of `extractHtml` (lines 466-482) -/

/-- `[a-zA-Z_$]`, the first character of a JS identifier in these
patterns (later characters are `\w`, which excludes `$`). -/
def jsNameStart (c : Char) : Bool := c.isAlpha || c = '_' || c = '$'

/-- `function\s+([a-zA-Z_$]\w*)\s*\(` from one position. -/
def jsFuncCore (cs : List Char) : Option String :=
  match dropPrefixCh "function".toList cs with
  | none => none
  | some [] => none
  | some (c :: r') =>
      if wsChar c then
        match r'.dropWhile wsChar with
        | d :: r2 =>
            if jsNameStart d then
              match (r2.dropWhile isWordChar).dropWhile wsChar with
              | '(' :: _ => some (String.mk (d :: r2.takeWhile isWordChar))
              | _ => none
            else none
        | [] => none
      else none

/-- `/(?:async\s+)?function\s+([a-zA-Z_$]\w*)\s*\(/` at one position
(line 363). -/
def tryJsFuncAt (cs : List Char) : Option String :=
  match dropPrefixCh "async".toList cs with
  | some (c :: r') =>
      if wsChar c then jsFuncCore (r'.dropWhile wsChar) else jsFuncCore cs
  | some [] => jsFuncCore cs
  | none => jsFuncCore cs

/-- `(?:\([^)]*\)|[a-zA-Z_$]\w*)\s*=>`: a parenthesised parameter list or
a bare identifier, then an arrow. -/
def arrowTail (cs : List Char) : Bool :=
  match cs with
  | '(' :: r =>
      (match r.dropWhile (fun c => c ≠ ')') with
        | ')' :: r2 =>
            (match r2.dropWhile wsChar with
              | '=' :: '>' :: _ => true
              | _ => false)
        | _ => false)
  | d :: r =>
      if jsNameStart d then
        match (r.dropWhile isWordChar).dropWhile wsChar with
        | '=' :: '>' :: _ => true
        | _ => false
      else false
  | [] => false

/-- `(?:async\s+)?` before the arrow parameter: when taking the optional
`async` fails to complete a match the regex backtracks and retries
without it (so `async => ...` still matches with `async` as the
parameter name). -/
def arrowBody (cs : List Char) : Bool :=
  match dropPrefixCh "async".toList cs with
  | some (c :: r') =>
      if wsChar c then (arrowTail (r'.dropWhile wsChar) || arrowTail cs)
      else arrowTail cs
  | some [] => arrowTail cs
  | none => arrowTail cs

/-- `(const|let|var)\s+` — keyword alternation. -/
def kwPrefix (cs : List Char) : Option (List Char) :=
  match dropPrefixCh "const".toList cs with
  | some r => some r
  | none =>
      match dropPrefixCh "let".toList cs with
      | some r => some r
      | none => dropPrefixCh "var".toList cs

/-- `/(?:const|let|var)\s+([a-zA-Z_$]\w*)\s*=\s*(?:async\s+)?(?:\([^)]*\)|[a-zA-Z_$]\w*)\s*=>/`
at one position (line 370). -/
def tryArrowAt (cs : List Char) : Option String :=
  match kwPrefix cs with
  | none => none
  | some [] => none
  | some (c :: r') =>
      if wsChar c then
        match r'.dropWhile wsChar with
        | d :: r2 =>
            if jsNameStart d then
              match (r2.dropWhile isWordChar).dropWhile wsChar with
              | '=' :: r3 =>
                  if arrowBody (r3.dropWhile wsChar) then
                    some (String.mk (d :: r2.takeWhile isWordChar))
                  else none
              | _ => none
            else none
        | [] => none
      else none

/-- `/class\s+([A-Z]\w*)/` at one position (line 377). -/
def tryJsClassAt (cs : List Char) : Option String :=
  match dropPrefixCh "class".toList cs with
  | some (c :: r') =>
      if wsChar c then
        match r'.dropWhile wsChar with
        | d :: r2 =>
            if d.isUpper then some (String.mk (d :: r2.takeWhile isWordChar))
            else none
        | [] => none
      else none
  | _ => none

/-- One line of `extractJsRegex` (lines 358-382): function declaration,
else arrow-function binding, else class declaration; all three record
`i + 1 + lineOffset`. -/
def jsRegexLine (filePath : String) (lineOffset : Nat) (syms : Registry)
    (line : String) (i : Nat) : Registry :=
  match searchAt tryJsFuncAt line.toList with
  | some name =>
      { syms with
          functions := addSymbol syms.functions name filePath
                          (i + 1 + lineOffset) }
  | none =>
      match searchAt tryArrowAt line.toList with
      | some name =>
          { syms with
              functions := addSymbol syms.functions name filePath
                              (i + 1 + lineOffset) }
      | none =>
          match searchAt tryJsClassAt line.toList with
          | some name =>
              { syms with
                  classes := addSymbol syms.classes name filePath
                                (i + 1 + lineOffset) }
          | none => syms

/-- The indexed loop of `extractJsRegex`. -/
def extractJsRegexFrom (filePath : String) (lineOffset : Nat) :
    List String → Nat → Registry → Registry
  | [], _, syms => syms
  | l :: rest, i, syms =>
      extractJsRegexFrom filePath lineOffset rest (i + 1)
        (jsRegexLine filePath lineOffset syms l i)

/-- `extractJsRegex(filePath, lines, symbols, lineOffset)`
(lines 357-383). -/
def extractJsRegex (filePath : String) (lines : List String)
    (syms : Registry) (lineOffset : Nat) : Registry :=
  extractJsRegexFrom filePath lineOffset lines 0 syms

/-- Model of `extractWithAst` (lines 155-169). The external parser and
tree walk are an oracle: `none` when `parse` throws — the catch at lines
158-160 returns with the registry untouched — and `some f` when parsing
succeeds and the tree walk (itself wrapped in try/catch at lines
163-168) transforms the registry by `f`. On every input the function
returns normally: all exceptions are caught inside it. -/
def extractWithAstModel (parseResult : Option (Registry → Registry))
    (syms : Registry) : Registry :=
  match parseResult with
  | none => syms
  | some f => f syms

/-- One inline script block of `extractHtml` (lines 470-481). The
`catch` at lines 477-481 would run `extractWithRegex` as a fallback only
if `extractWithAst` threw; `extractWithAst` catches every parse and
extraction error internally and returns normally, so that catch branch
is unreachable and a block whose text fails to parse contributes
nothing. -/
def extractHtmlInlineBlock (parseResult : Option (Registry → Registry))
    (syms : Registry) : Registry :=
  extractWithAstModel parseResult syms

/-- **C6** is a code bug: a parse failure (`parseResult = none`) leaves
the registry exactly unchanged — the heuristic fallback never runs — even
though the fallback, had it run as the claim (and the source's own
comment at line 478) says, would have recorded the block's function
declaration at its offset-adjusted line: `extractJsRegex` on the same
block with offset 5 records `doThing` at line 6. -/
theorem extractHtml_inline_fallback_dead :
    (∀ (syms : Registry), extractHtmlInlineBlock none syms = syms) ∧
    alookup ((extractJsRegex "page.html" ["function doThing() \x7b", "\x7d"]
        emptyRegistry 5).functions) "doThing" =
      some ⟨"page.html", 6, 1⟩ := by
  exact ⟨fun syms => rfl, by decide⟩

/-- Witness: the dead-fallback equation at the empty registry. -/
theorem extractHtml_inline_fallback_dead_witness :
    extractHtmlInlineBlock none emptyRegistry = emptyRegistry :=
  extractHtml_inline_fallback_dead.1 emptyRegistry

/-! ## Directory walker (`scanProject` / `walkDir`, lines 50-150)

The filesystem is a pure tree value; experiment results (`stat` size and
mtime, file content) live on the `file` nodes. The per-language
extraction dispatch (lines 141-147) invokes the external syntax-tree
service for JS/TS/HTML, so it is passed in as a function
`extract lang relPath content registry`; the walker's own logic — skip
rules, ordering, limits, size caps, file recording — is embedded in
full, and the claims are proved for every extraction function. -/

/-- A directory entry: a subdirectory or a file with its `stat` size,
text content and mtime date string. -/
inductive FsEntry where
  | dir (name : String) (entries : List FsEntry)
  | file (name : String) (size : Nat) (content : String) (modified : String)

mutual

/-- Node count of one entry (termination measure for the walk). -/
def entrySize : FsEntry → Nat
  | .dir _ es => 1 + entriesSize es
  | .file _ _ _ _ => 1

/-- Node count of an entry list. -/
def entriesSize : List FsEntry → Nat
  | [] => 0
  | e :: es => entrySize e + entriesSize es

end

/-- The fixed `SKIP_DIRS` set (lines 21-31). -/
def SKIP_DIRS : List String :=
  ["node_modules", ".git", ".wisdom", ".claude", "dist", "build",
   "coverage", ".next", "__pycache__", ".tox", ".venv", "venv",
   "vendor", "target", ".cache", ".turbo", ".github",
   "archive", "backups", "backup", "logs", "tmp",
   "uploads", "media", "data", "migrations",
   "content", "Website", "public", "static", "assets"]

/-- Substring test (`String.prototype.includes` / an unanchored regex
literal). -/
def hasSubstr (pat : List Char) : List Char → Bool
  | [] => pat.isEmpty
  | c :: t => if pat.isPrefixOf (c :: t) then true else hasSubstr pat t

/-- The skip cascade (lines 104-108): hidden entries except
`.env.example`; the fixed skip set; the ignore-file names; directories
with a space or a case-insensitive `backup` in the name. -/
def skipEntry (name : String) (isDir : Bool) (extraSkip : List String) :
    Bool :=
  (strStartsWith name "." && !(name == ".env.example"))
  || SKIP_DIRS.contains name
  || extraSkip.contains name
  || (isDir && (hasSubstr " ".toList name.toList
        || hasSubstr "backup".toList (lowerStr name).toList))

/-- `path.extname`: from the last dot, unless that dot leads the name. -/
def extname (name : String) : String :=
  if (name.toList.reverse.takeWhile (fun c => c ≠ '.')).length =
      name.toList.length then ""
  else if (name.toList.reverse.takeWhile (fun c => c ≠ '.')).length + 1 =
      name.toList.length then ""
  else String.mk
    ('.' :: (name.toList.reverse.takeWhile (fun c => c ≠ '.')).reverse)

/-- `LANG_MAP` (lines 34-45), reduced to the language name; the ast-grep
handle is consumed by the external extraction service. -/
def langName : String → Option String
  | ".js" => some "javascript"
  | ".mjs" => some "javascript"
  | ".cjs" => some "javascript"
  | ".jsx" => some "javascript"
  | ".ts" => some "typescript"
  | ".tsx" => some "typescript"
  | ".py" => some "python"
  | ".go" => some "go"
  | ".rs" => some "rust"
  | ".html" => some "html"
  | _ => none

/-- One record of the `files` list (lines 133-139). -/
structure ScannedFile where
  path : String
  lang : String
  lines : Nat
  size : Nat
  modified : String
deriving DecidableEq, Repr

/-- The mutable pair `(files, symbols)` threaded through the walk. -/
structure ScanState where
  files : List ScannedFile
  symbols : Registry
deriving DecidableEq, Repr

/-- Name of an entry. -/
def entryName : FsEntry → String
  | .dir n _ => n
  | .file n _ _ _ => n

/-- Insertion step of the per-directory sort. -/
def insertEntry (e : FsEntry) : List FsEntry → List FsEntry
  | [] => [e]
  | x :: xs =>
      if entryName e ≤ entryName x then e :: x :: xs
      else x :: insertEntry e xs

/-- `entries.sort((a, b) => a.name.localeCompare(b.name))` (line 100),
modelled as an insertion sort on the names (code-point order standing in
for the locale collation; the claims are order-independent). -/
def sortEntries : List FsEntry → List FsEntry
  | [] => []
  | e :: es => insertEntry e (sortEntries es)

theorem entriesSize_insert (e : FsEntry) :
    ∀ l, entriesSize (insertEntry e l) = entrySize e + entriesSize l := by
  intro l
  induction l with
  | nil => rfl
  | cons x xs ih =>
      unfold insertEntry
      split
      · rfl
      · simp only [entriesSize, ih]
        omega

theorem entriesSize_sort :
    ∀ l, entriesSize (sortEntries l) = entriesSize l := by
  intro l
  induction l with
  | nil => rfl
  | cons e es ih => simp only [sortEntries, entriesSize_insert, entriesSize, ih]

theorem entrySize_pos : ∀ e, 1 ≤ entrySize e := by
  intro e
  cases e <;> simp [entrySize]

/-- `path.relative(projectRoot, path.join(dir, name))` along the walk:
the accumulated relative path. -/
def childRel (rel name : String) : String :=
  if rel = "" then name else rel ++ "/" ++ name

/-- JS `option || default` on a count: `undefined` and `0` both fall back
(lines 51-52). -/
def jsOrNat (a : Option Nat) (b : Nat) : Nat :=
  match a with
  | some n => if n = 0 then b else n
  | none => b

/-- The body of `walkDir` (lines 92-150) on the already-sorted entry
list of one directory. Each loop iteration breaks when the file budget
is exhausted; a subdirectory recursion carries `walkDir`'s own entry
guard (`depth > maxDepth || files.length >= maxFiles`, line 93) inlined
at the call; a file is recorded and extracted when it survives the skip
cascade, has a known extension and fits the per-language size cap. -/
def walkEntries (maxDepth maxFiles : Nat) (extraSkip : List String)
    (extract : String → String → String → Registry → Registry) :
    List FsEntry → String → Nat → ScanState → ScanState
  | [], _, _, st => st
  | e :: rest, rel, depth, st =>
      if st.files.length ≥ maxFiles then st
      else
        match e with
        | .dir name children =>
            let st' :=
              if skipEntry name true extraSkip then st
              else if depth + 1 > maxDepth ∨ st.files.length ≥ maxFiles then
                st
              else
                walkEntries maxDepth maxFiles extraSkip extract
                  (sortEntries children) (childRel rel name) (depth + 1) st
            walkEntries maxDepth maxFiles extraSkip extract rest rel depth st'
        | .file name size content modified =>
            let st' :=
              if skipEntry name false extraSkip then st
              else
                match langName (extname name) with
                | none => st
                | some lang =>
                    if size > (if lang = "html" then 5 * 1024 * 1024
                        else 500 * 1024) then st
                    else
                      let st1 : ScanState :=
                        { st with
                            files := st.files ++ [⟨childRel rel name, lang,
                              (strSplitOn content '\n').length, size,
                              modified⟩] }
                      { st1 with
                          symbols := extract lang (childRel rel name)
                                        content st1.symbols }
            walkEntries maxDepth maxFiles extraSkip extract rest rel depth st'
termination_by l _ _ _ => entriesSize l
decreasing_by
  · simp only [entriesSize, entrySize, entriesSize_sort]
    omega
  · simp only [entriesSize, entrySize]
    omega
  · simp only [entriesSize, entrySize]
    omega

/-- `scanProject(projectRoot, options)` (lines 50-68): resolve the
defaulted limits, then walk from the root at depth 0 with a fresh state.
The `.gitignore`-derived extra skip set is filesystem input and is
passed in. -/
def scanProject (root : List FsEntry) (optMaxDepth optMaxFiles : Option Nat)
    (extraSkip : List String)
    (extract : String → String → String → Registry → Registry) : ScanState :=
  if 0 > jsOrNat optMaxDepth 8 ∨ 0 ≥ jsOrNat optMaxFiles 2000 then
    ⟨[], emptyRegistry⟩
  else
    walkEntries (jsOrNat optMaxDepth 8) (jsOrNat optMaxFiles 2000) extraSkip
      extract (sortEntries root) "" 0 ⟨[], emptyRegistry⟩

/-- A walk started at an exhausted file budget does nothing. -/
theorem walkEntries_stuck (maxDepth maxFiles : Nat)
    (extraSkip : List String)
    (extract : String → String → String → Registry → Registry)
    (entries : List FsEntry) (rel : String) (depth : Nat) (st : ScanState)
    (h : st.files.length ≥ maxFiles) :
    walkEntries maxDepth maxFiles extraSkip extract entries rel depth st =
      st := by
  cases entries with
  | nil => rw [walkEntries.eq_def]
  | cons e rest =>
      rw [walkEntries.eq_def]
      simp only []
      rw [if_pos h]

/-- The file budget is an invariant of the walk: a state within the
budget stays within it, because a file is pushed only after the loop head
has checked `files.length >= maxFiles` (and then `< maxFiles` holds). -/
theorem walkEntries_files_le (maxDepth maxFiles : Nat)
    (extraSkip : List String)
    (extract : String → String → String → Registry → Registry) :
    ∀ (n : Nat) (entries : List FsEntry), entriesSize entries ≤ n →
      ∀ (rel : String) (depth : Nat) (st : ScanState),
        st.files.length ≤ maxFiles →
        (walkEntries maxDepth maxFiles extraSkip extract entries rel depth
          st).files.length ≤ maxFiles := by
  intro n
  induction n with
  | zero =>
      intro entries hsz rel depth st hst
      cases entries with
      | nil => rw [walkEntries.eq_def]; exact hst
      | cons e rest =>
          exfalso
          have := entrySize_pos e
          simp only [entriesSize] at hsz
          omega
  | succ n ih =>
      intro entries hsz rel depth st hst
      cases entries with
      | nil => rw [walkEntries.eq_def]; exact hst
      | cons e rest =>
          have hsz' : entriesSize rest ≤ n := by
            have := entrySize_pos e
            simp only [entriesSize] at hsz
            omega
          rw [walkEntries.eq_def]
          simp only []
          by_cases hful : st.files.length ≥ maxFiles
          · rw [if_pos hful]; exact hst
          · rw [if_neg hful]
            cases e with
            | dir name children =>
                apply ih rest hsz' rel depth
                by_cases hskip : skipEntry name true extraSkip
                · rw [if_pos hskip]; exact hst
                · rw [if_neg hskip]
                  by_cases hguard : depth + 1 > maxDepth ∨
                      st.files.length ≥ maxFiles
                  · rw [if_pos hguard]; exact hst
                  · rw [if_neg hguard]
                    apply ih (sortEntries children) ?_ _ _ _ hst
                    rw [entriesSize_sort]
                    simp only [entriesSize, entrySize] at hsz
                    omega
            | file name size content modified =>
                apply ih rest hsz' rel depth
                by_cases hskip : skipEntry name false extraSkip
                · rw [if_pos hskip]; exact hst
                · rw [if_neg hskip]
                  cases langName (extname name) with
                  | none => exact hst
                  | some lang =>
                      simp only []
                      by_cases hsize : size > (if lang = "html" then
                          5 * 1024 * 1024 else 500 * 1024)
                      · rw [if_pos hsize]; exact hst
                      · rw [if_neg hsize]
                        simp only [List.length_append, List.length_cons,
                          List.length_nil]
                        omega

/-- A directory reached at a depth at or beyond the limit contributes
nothing: the walk continues with the remaining entries and an unchanged
state. -/
theorem walkEntries_deep_dir (maxDepth maxFiles : Nat)
    (extraSkip : List String)
    (extract : String → String → String → Registry → Registry)
    (name : String) (children rest : List FsEntry) (rel : String)
    (depth : Nat) (st : ScanState) (hdeep : depth ≥ maxDepth) :
    walkEntries maxDepth maxFiles extraSkip extract
        (FsEntry.dir name children :: rest) rel depth st =
      walkEntries maxDepth maxFiles extraSkip extract rest rel depth st := by
  rw [walkEntries.eq_def]
  simp only []
  by_cases hful : st.files.length ≥ maxFiles
  · rw [if_pos hful,
      walkEntries_stuck maxDepth maxFiles extraSkip extract rest rel depth
        st hful]
  · rw [if_neg hful]
    congr 1
    by_cases hskip : skipEntry name true extraSkip
    · rw [if_pos hskip]
    · rw [if_neg hskip, if_pos (Or.inl (by omega))]

/-- **C8.** For every project tree, every options value and every
extraction service: `scanProject` returns (it is a total function) with
at most `maxFiles` files — 2000 when the option is absent or zero — and a
directory reached at a depth beyond `maxDepth` contributes no files and
no symbols (the walk's state passes through it unchanged). Hitting
either limit only omits entries; no error value exists in the result
type. -/
theorem scanProject_limits :
    (∀ (root : List FsEntry) (optMaxDepth optMaxFiles : Option Nat)
        (extraSkip : List String)
        (extract : String → String → String → Registry → Registry),
        (scanProject root optMaxDepth optMaxFiles extraSkip
          extract).files.length ≤ jsOrNat optMaxFiles 2000) ∧
    (∀ (maxDepth maxFiles : Nat) (extraSkip : List String)
        (extract : String → String → String → Registry → Registry)
        (name : String) (children rest : List FsEntry) (rel : String)
        (depth : Nat) (st : ScanState), depth ≥ maxDepth →
        walkEntries maxDepth maxFiles extraSkip extract
            (FsEntry.dir name children :: rest) rel depth st =
          walkEntries maxDepth maxFiles extraSkip extract rest rel depth
            st) := by
  constructor
  · intro root optMaxDepth optMaxFiles extraSkip extract
    unfold scanProject
    split
    · simp
    · exact walkEntries_files_le (jsOrNat optMaxDepth 8)
        (jsOrNat optMaxFiles 2000) extraSkip extract
        (entriesSize (sortEntries root)) (sortEntries root) le_rfl "" 0
        ⟨[], emptyRegistry⟩ (by simp)
  · intro maxDepth maxFiles extraSkip extract name children rest rel depth
      st hdeep
    exact walkEntries_deep_dir maxDepth maxFiles extraSkip extract name
      children rest rel depth st hdeep

/-- Witness for C8: a three-file tree scanned with `maxFiles = 2` stays
within the budget, and a directory visited at depth 9 with `maxDepth = 8`
is skipped over without touching the state. -/
theorem scanProject_limits_witness :
    (scanProject
        [FsEntry.file "a.js" 1 "x" "d", FsEntry.file "b.js" 1 "x" "d",
          FsEntry.file "c.js" 1 "x" "d"] (some 8) (some 2) []
        (fun _ _ _ s => s)).files.length ≤ jsOrNat (some 2) 2000 ∧
    walkEntries 8 100 [] (fun _ _ _ s => s)
        [FsEntry.dir "deep" [FsEntry.file "a.js" 1 "x" "d"]] "" 9
        ⟨[], emptyRegistry⟩ =
      walkEntries 8 100 [] (fun _ _ _ s => s) [] "" 9
        ⟨[], emptyRegistry⟩ :=
  ⟨scanProject_limits.1
      [FsEntry.file "a.js" 1 "x" "d", FsEntry.file "b.js" 1 "x" "d",
        FsEntry.file "c.js" 1 "x" "d"] (some 8) (some 2) []
      (fun _ _ _ s => s),
    scanProject_limits.2 8 100 [] (fun _ _ _ s => s) "deep"
      [FsEntry.file "a.js" 1 "x" "d"] [] "" 9 ⟨[], emptyRegistry⟩
      (by decide)⟩

end WisdomStore
